import Mathlib

set_option linter.unusedSectionVars false

/-!
Shallow embedding of the `lru` Go package (file `lru.go`): a generic,
capacity-bounded LRU cache with optional per-entry expiry instants.

Modelling choices, each traceable to the source:
* Go `time.Time` values are modelled as `Option Nat` for the `expireAt`
  field: `none` is Go's zero `time.Time` (`IsZero()` true, "never
  expires"), `some t` is a concrete instant.  `time.Now()` becomes an
  explicit `now : Nat` argument to every operation that reads the clock.
* Go `time.Duration` (a signed integer number of nanoseconds) is `Int`;
  the source only ever compares durations against `0` and adds positive
  ones to `time.Now()`, which becomes `now + d.toNat` under `0 < d`.
* The `items map[K]*list.Element` field is modelled as the list of keys
  currently bound in the map (`items : List K`); the element pointer
  stored for a key designates the unique node of the recency list
  carrying that key, so a map lookup `c.items[key]` is modelled as
  `c.list.find?` on the key (the invariant theorem below shows map
  domain and list keys coincide on every reachable state, which makes
  the two readings of a lookup agree).
* The `list *list.List` field (front = most recently used) is
  `list : List (Entry K V)`, front first.
* The mutex only serialises operations; each public method is modelled
  as one atomic function from cache state (plus clock) to cache state.
-/

namespace LruGo

/-- One cache entry, mirroring `type entry[K, V]` of `lru.go`:
key, value, and the expiry instant (`none` = zero `time.Time`). -/
structure Entry (K V : Type) where
  key : K
  value : V
  expireAt : Option Nat
deriving DecidableEq, Repr

/-- Cache state, mirroring the `Cache[K, V]` struct fields that carry
data: `items` (domain of the Go map), `list` (recency order, front
first), `size` (capacity), `ttl` (default TTL, a signed duration).
The cleaner fields only drive the background goroutine that calls
`Purge` and carry no cache data, so they are not part of the state. -/
structure Cache (K V : Type) where
  items : List K
  list : List (Entry K V)
  size : Nat
  ttl : Int
deriving DecidableEq, Repr

/-- The Go constant `DefaultCacheSize = 10`. -/
def DefaultCacheSize : Nat := 10

/-- Capacity normalisation shared by `New` and `SetCapacity`:
`if size <= 0 { size = DefaultCacheSize }`. -/
def normCap (n : Int) : Nat :=
  if n ≤ 0 then DefaultCacheSize else n.toNat

/-- The constructor `New(size)`: empty map, empty list, normalised
capacity, zero default TTL. -/
def New (K V : Type) (n : Int) : Cache K V :=
  { items := [], list := [], size := normCap n, ttl := 0 }

/-- The chainable `TTL(duration)` setter: stores the default TTL. -/
def TTL {K V : Type} (c : Cache K V) (d : Int) : Cache K V :=
  { c with ttl := d }

/-- The expiry computed at the top of `Set`: `if c.ttl > 0 { expireAt =
time.Now().Add(c.ttl) }`, else the zero time. -/
def mkExpire (ttl : Int) (now : Nat) : Option Nat :=
  if 0 < ttl then some (now + ttl.toNat) else none

variable {K V : Type} [DecidableEq K]

/-- Predicate selecting the list node a map lookup of key `k` yields. -/
def keyMatch (k : K) (e : Entry K V) : Bool :=
  decide (e.key = k)

/-- In-place update of a node's `e.Value`: replace the first entry
satisfying `p` (the node the map points at) by `x`. -/
def replaceFirst (p : Entry K V → Bool) (x : Entry K V) :
    List (Entry K V) → List (Entry K V)
  | [] => []
  | e :: rest => if p e then x :: rest else e :: replaceFirst p x rest

/-- `c.list.MoveToFront(e)` where `e` is the node holding key `k`:
detach that node and re-attach it at the front. -/
def moveToFront (l : List (Entry K V)) (k : K) : List (Entry K V) :=
  match l.find? (keyMatch k) with
  | none => l
  | some e => e :: l.eraseP (keyMatch k)

/-- `removeElement(e)` for the node holding key `k`: `c.list.Remove(e)`
then `delete(c.items, item.key)`. -/
def removeElement (c : Cache K V) (k : K) : Cache K V :=
  { c with list := c.list.eraseP (keyMatch k), items := c.items.erase k }

/-- `removeOldest()`: if the list has a back node, remove that node from
the list and delete its key from the map. -/
def removeOldest (c : Cache K V) : Cache K V :=
  match c.list.getLast? with
  | none => c
  | some e => { c with list := c.list.dropLast, items := c.items.erase e.key }

/-- `Set(key, value)`: compute the default expiry; on a hit overwrite the
node's entry (renewing the expiry only when the old entry had one) and
move it to the front; on a miss push a fresh node at the front, register
the key in the map, and evict the back node if the length now exceeds
the capacity.  The returned handle is just the key, so it is not part of
the result. -/
def Set (c : Cache K V) (now : Nat) (k : K) (v : V) : Cache K V :=
  let expireAt := mkExpire c.ttl now
  match c.list.find? (keyMatch k) with
  | some item =>
    let newE : Entry K V :=
      match item.expireAt with
      | some _ => { key := k, value := v, expireAt := expireAt }
      | none => { key := k, value := v, expireAt := none }
    let l1 := replaceFirst (keyMatch k) newE c.list
    { c with list := moveToFront l1 k }
  | none =>
    let c1 : Cache K V :=
      { c with list := { key := k, value := v, expireAt := expireAt } :: c.list,
               items := k :: c.items }
    if c1.list.length > c1.size then removeOldest c1 else c1

/-- The liveness test of `get` and `Keys`:
`item.expireAt.IsZero() || now.Before(item.expireAt)`. -/
def isLive (now : Nat) (e : Entry K V) : Bool :=
  match e.expireAt with
  | none => true
  | some t => decide (now < t)

/-- The removal test of `Purge`:
`!item.expireAt.IsZero() && now.After(item.expireAt)`. -/
def isExpired (now : Nat) (e : Entry K V) : Bool :=
  match e.expireAt with
  | none => false
  | some t => decide (t < now)

variable [Inhabited V]

/-- The internal `get(key, updatePos)`: on a live hit optionally move the
node to the front and return its value; on an expired hit remove the
node and fall through; otherwise return the zero value and `false`. -/
def getAux (c : Cache K V) (now : Nat) (k : K) (updatePos : Bool) :
    V × Bool × Cache K V :=
  match c.list.find? (keyMatch k) with
  | some item =>
    if isLive now item then
      if updatePos then (item.value, true, { c with list := moveToFront c.list k })
      else (item.value, true, c)
    else
      (default, false, removeElement c k)
  | none => (default, false, c)

/-- `Get(key)`: promoting read, `c.get(key, true)`. -/
def Get (c : Cache K V) (now : Nat) (k : K) : V × Bool × Cache K V :=
  getAux c now k true

/-- `Peek(key)`: non-promoting read, `c.get(key, false)`. -/
def Peek (c : Cache K V) (now : Nat) (k : K) : V × Bool × Cache K V :=
  getAux c now k false

/-- `Delete(key)`: remove the node if the map holds the key. -/
def Delete (c : Cache K V) (k : K) : Bool × Cache K V :=
  match c.list.find? (keyMatch k) with
  | some _ => (true, removeElement c k)
  | none => (false, c)

/-- `Size()`: `c.list.Len()`. -/
def Size (c : Cache K V) : Nat :=
  c.list.length

/-- `Capacity()`: `c.size`. -/
def Capacity (c : Cache K V) : Nat :=
  c.size

/-- The eviction loop of `SetCapacity`:
`for c.list.Len() > c.size { c.removeOldest() }`. -/
def shrink (c : Cache K V) : Cache K V :=
  if h : c.list.length > c.size then
    have hlen : (removeOldest c).list.length < c.list.length := by
      have hne : c.list ≠ [] := by
        intro hnil
        rw [hnil] at h
        exact absurd h (by simp)
      rcases List.getLast?_eq_getLast c.list hne with hlast
      simp only [removeOldest, hlast]
      have := List.length_pos.mpr hne
      simp [List.length_dropLast]
      omega
    shrink (removeOldest c)
  else c
termination_by c.list.length

/-- `SetCapacity(size)`: normalise, store the new capacity, then evict
from the back until the length fits. -/
def SetCapacity (c : Cache K V) (n : Int) : Cache K V :=
  shrink { c with size := normCap n }

/-- `Keys()`: keys of the entries that pass the liveness test, walking
front to back. -/
def Keys (c : Cache K V) (now : Nat) : List K :=
  (c.list.filter (isLive now)).map Entry.key

/-- The walk of `Purge`: front to back over the list, calling
`removeElement` (list removal plus map delete) on every expired node and
counting; returns the surviving list, the surviving map domain, and the
count. -/
def purgeGo (now : Nat) :
    List (Entry K V) → List K → List (Entry K V) × List K × Nat
  | [], its => ([], its, 0)
  | e :: rest, its =>
    if isExpired now e then
      let r := purgeGo now rest (its.erase e.key)
      (r.1, r.2.1, r.2.2 + 1)
    else
      let r := purgeGo now rest its
      (e :: r.1, r.2.1, r.2.2)

/-- `Purge()`: run the walk at one captured `now`, returning the count
and the new cache state. -/
def Purge (c : Cache K V) (now : Nat) : Nat × Cache K V :=
  let r := purgeGo now c.list c.items
  (r.2.2, { c with list := r.1, items := r.2.1 })

/-- The handle method `Expire(duration)`: if the handle's key is still in
the map, overwrite that node's entry with the same key and value and a
fresh expiry (`none` for `duration <= 0`, `now + duration` otherwise);
otherwise do nothing. -/
def Expire (c : Cache K V) (now : Nat) (k : K) (d : Int) : Cache K V :=
  match c.list.find? (keyMatch k) with
  | some item =>
    let expireAt : Option Nat := if 0 < d then some (now + d.toNat) else none
    { c with
      list := replaceFirst (keyMatch k)
        { key := item.key, value := item.value, expireAt := expireAt } c.list }
  | none => c

/-- `Clear()`: `c.list.Init()` and a fresh map. -/
def Clear (c : Cache K V) : Cache K V :=
  { c with list := [], items := [] }

/-- The keys of the recency list, front to back. -/
def keysOf (c : Cache K V) : List K :=
  c.list.map Entry.key

/-- Map/list synchronisation: the map domain and the list keys are both
duplicate-free and contain the same keys. -/
def Sync (c : Cache K V) : Prop :=
  c.items.Nodup ∧ (keysOf c).Nodup ∧ ∀ k, k ∈ c.items ↔ k ∈ keysOf c

/-- The full structural invariant: synchronisation, the list fits the
capacity, and the capacity is positive. -/
def Inv (c : Cache K V) : Prop :=
  Sync c ∧ c.list.length ≤ c.size ∧ 0 < c.size

/-- States reachable from a freshly constructed cache by the public
operations of `lru.go` (the background cleaner only ever calls `Purge`,
so it adds no transitions beyond these). -/
inductive Reachable : Cache K V → Prop
  | new (n : Int) : Reachable (New K V n)
  | ttl {c : Cache K V} (d : Int) : Reachable c → Reachable (TTL c d)
  | set {c : Cache K V} (now : Nat) (k : K) (v : V) :
      Reachable c → Reachable (Set c now k v)
  | expire {c : Cache K V} (now : Nat) (k : K) (d : Int) :
      Reachable c → Reachable (Expire c now k d)
  | get {c : Cache K V} (now : Nat) (k : K) :
      Reachable c → Reachable (Get c now k).2.2
  | peek {c : Cache K V} (now : Nat) (k : K) :
      Reachable c → Reachable (Peek c now k).2.2
  | delete {c : Cache K V} (k : K) :
      Reachable c → Reachable (Delete c k).2
  | setCapacity {c : Cache K V} (n : Int) :
      Reachable c → Reachable (SetCapacity c n)
  | purge {c : Cache K V} (now : Nat) :
      Reachable c → Reachable (Purge c now).2
  | clear {c : Cache K V} : Reachable c → Reachable (Clear c)

/-! Basic lemmas about the list-manipulation helpers. -/

theorem keyMatch_iff {k : K} {e : Entry K V} : keyMatch k e = true ↔ e.key = k := by
  simp [keyMatch]

theorem find?_keyMatch_eq_none {l : List (Entry K V)} {k : K} :
    l.find? (keyMatch k) = none ↔ k ∉ l.map Entry.key := by
  rw [List.find?_eq_none]
  simp [keyMatch]

theorem key_of_find? {l : List (Entry K V)} {k : K} {e : Entry K V}
    (hf : l.find? (keyMatch k) = some e) : e.key = k :=
  keyMatch_iff.mp (List.find?_some hf)

theorem mem_map_key_of_find? {l : List (Entry K V)} {k : K} {e : Entry K V}
    (hf : l.find? (keyMatch k) = some e) : k ∈ l.map Entry.key := by
  rw [← key_of_find? hf]
  exact List.mem_map_of_mem Entry.key (List.mem_of_find?_eq_some hf)

theorem map_key_eraseP (l : List (Entry K V)) (k : K) :
    (l.eraseP (keyMatch k)).map Entry.key = (l.map Entry.key).erase k := by
  induction l with
  | nil => simp
  | cons e rest ih =>
    by_cases h : e.key = k
    · simp [List.eraseP_cons, keyMatch, h, List.erase_cons]
    · simp [List.eraseP_cons, keyMatch, h, List.erase_cons, ih]

theorem cons_eraseP_perm {p : Entry K V → Bool} {l : List (Entry K V)} {e : Entry K V}
    (hf : l.find? p = some e) : (e :: l.eraseP p).Perm l := by
  induction l with
  | nil => simp at hf
  | cons a rest ih =>
    by_cases h : p a
    · rw [List.find?_cons_of_pos _ h, Option.some.injEq] at hf
      rw [List.eraseP_cons_of_pos h, hf]
    · rw [List.find?_cons_of_neg _ h] at hf
      rw [List.eraseP_cons_of_neg h]
      exact (List.Perm.swap a e _).trans ((ih hf).cons a)

theorem moveToFront_perm (l : List (Entry K V)) (k : K) : (moveToFront l k).Perm l := by
  unfold moveToFront
  cases hf : l.find? (keyMatch k) with
  | none => exact List.Perm.refl l
  | some e => exact cons_eraseP_perm hf

theorem length_replaceFirst (p : Entry K V → Bool) (x : Entry K V) (l : List (Entry K V)) :
    (replaceFirst p x l).length = l.length := by
  induction l with
  | nil => rfl
  | cons e rest ih =>
    by_cases h : p e <;> simp [replaceFirst, h, ih]

theorem map_key_replaceFirst {k : K} {x : Entry K V} (hx : x.key = k) (l : List (Entry K V)) :
    (replaceFirst (keyMatch k) x l).map Entry.key = l.map Entry.key := by
  induction l with
  | nil => rfl
  | cons e rest ih =>
    by_cases h : keyMatch k e
    · have he : e.key = k := keyMatch_iff.mp h
      simp [replaceFirst, h, hx, he]
    · simp [replaceFirst, h, ih]

theorem find?_replaceFirst {k : K} {x item : Entry K V} (hx : keyMatch k x = true)
    {l : List (Entry K V)} (hf : l.find? (keyMatch k) = some item) :
    (replaceFirst (keyMatch k) x l).find? (keyMatch k) = some x := by
  induction l with
  | nil => simp at hf
  | cons e rest ih =>
    by_cases h : keyMatch k e
    · simp [replaceFirst, h, List.find?_cons_of_pos _ hx]
    · rw [List.find?_cons_of_neg _ h] at hf
      simp [replaceFirst, h, List.find?_cons_of_neg _ h, ih hf]

theorem eraseP_replaceFirst {k : K} {x item : Entry K V} (hx : keyMatch k x = true)
    {l : List (Entry K V)} (hf : l.find? (keyMatch k) = some item) :
    (replaceFirst (keyMatch k) x l).eraseP (keyMatch k) = l.eraseP (keyMatch k) := by
  induction l with
  | nil => simp at hf
  | cons e rest ih =>
    by_cases h : keyMatch k e
    · rw [List.eraseP_cons_of_pos h]
      simp [replaceFirst, h, List.eraseP_cons_of_pos hx]
    · rw [List.find?_cons_of_neg _ h] at hf
      rw [List.eraseP_cons_of_neg h]
      simp [replaceFirst, h, List.eraseP_cons_of_neg h, ih hf]

theorem moveToFront_replaceFirst {k : K} {x item : Entry K V} (hx : keyMatch k x = true)
    {l : List (Entry K V)} (hf : l.find? (keyMatch k) = some item) :
    moveToFront (replaceFirst (keyMatch k) x l) k = x :: l.eraseP (keyMatch k) := by
  unfold moveToFront
  rw [find?_replaceFirst hx hf, eraseP_replaceFirst hx hf]

/-! Shape lemmas for the branches of `Set`. -/

theorem Set_found_shape (c : Cache K V) (now : Nat) (k : K) (v : V) {item : Entry K V}
    (hf : c.list.find? (keyMatch k) = some item) :
    ∃ x : Entry K V, x.key = k ∧ x.value = v ∧
      (x.expireAt = match item.expireAt with
        | some _ => mkExpire c.ttl now
        | none => none) ∧
      Set c now k v = { c with list := x :: c.list.eraseP (keyMatch k) } := by
  unfold Set
  rw [hf]
  cases hexp : item.expireAt with
  | some t0 =>
    refine ⟨{ key := k, value := v, expireAt := mkExpire c.ttl now }, rfl, rfl, rfl, ?_⟩
    simp only [hexp]
    rw [moveToFront_replaceFirst (by simp [keyMatch]) hf]
  | none =>
    refine ⟨{ key := k, value := v, expireAt := none }, rfl, rfl, rfl, ?_⟩
    simp only [hexp]
    rw [moveToFront_replaceFirst (by simp [keyMatch]) hf]

theorem Set_not_found_shape (c : Cache K V) (now : Nat) (k : K) (v : V)
    (hf : c.list.find? (keyMatch k) = none) :
    Set c now k v =
      (if c.list.length + 1 > c.size then
        removeOldest { c with
          list := { key := k, value := v, expireAt := mkExpire c.ttl now } :: c.list,
          items := k :: c.items }
      else { c with
          list := { key := k, value := v, expireAt := mkExpire c.ttl now } :: c.list,
          items := k :: c.items }) := by
  unfold Set
  rw [hf]
  rfl

/-! Preservation of map/list synchronisation by each structural step. -/

theorem sync_removeElement {c : Cache K V} (h : Sync c) (k : K) :
    Sync (removeElement c k) := by
  obtain ⟨h1, h2, h3⟩ := h
  refine ⟨h1.erase k, ?_, ?_⟩
  · show ((c.list.eraseP (keyMatch k)).map Entry.key).Nodup
    rw [map_key_eraseP]
    exact h2.erase k
  · intro x
    show x ∈ c.items.erase k ↔ x ∈ (c.list.eraseP (keyMatch k)).map Entry.key
    have h2' : (c.list.map Entry.key).Nodup := h2
    rw [map_key_eraseP, List.Nodup.mem_erase_iff h1, List.Nodup.mem_erase_iff h2', h3 x]
    rfl

theorem mem_dropLast_iff {l : List K} (hn : l.Nodup) (hne : l ≠ []) (x : K) :
    x ∈ l.dropLast ↔ x ≠ l.getLast hne ∧ x ∈ l := by
  have hsplit := List.dropLast_append_getLast hne
  constructor
  · intro hx
    have hxl : x ∈ l := (List.dropLast_sublist l).mem hx
    refine ⟨?_, hxl⟩
    rintro rfl
    rw [← hsplit, List.nodup_append] at hn
    exact hn.2.2 hx (List.mem_singleton.mpr rfl)
  · rintro ⟨hxa, hxl⟩
    rw [← hsplit] at hxl
    rcases List.mem_append.mp hxl with h | h
    · exact h
    · exact absurd (List.mem_singleton.mp h) hxa

theorem removeOldest_nil {c : Cache K V} (hnil : c.list = []) : removeOldest c = c := by
  unfold removeOldest
  rw [hnil]
  rfl

theorem removeOldest_shape {c : Cache K V} (hne : c.list ≠ []) :
    removeOldest c = { c with
      list := c.list.dropLast,
      items := c.items.erase (c.list.getLast hne).key } := by
  unfold removeOldest
  rw [List.getLast?_eq_getLast c.list hne]

theorem keysOf_getLast {c : Cache K V} (hne : c.list ≠ []) (hne' : keysOf c ≠ []) :
    (keysOf c).getLast hne' = (c.list.getLast hne).key := by
  have := List.getLast?_map Entry.key c.list
  rw [List.getLast?_eq_getLast c.list hne] at this
  have h2 : (keysOf c).getLast? = some ((c.list.getLast hne).key) := this
  rw [List.getLast?_eq_getLast _ hne'] at h2
  exact Option.some.inj h2

theorem sync_removeOldest {c : Cache K V} (h : Sync c) : Sync (removeOldest c) := by
  by_cases hnil : c.list = []
  · rw [removeOldest_nil hnil]
    exact h
  · obtain ⟨h1, h2, h3⟩ := h
    rw [removeOldest_shape hnil]
    have hkne : keysOf c ≠ [] := by
      intro habs
      exact hnil (List.map_eq_nil_iff.mp habs)
    have hdl : (c.list.dropLast).map Entry.key = (keysOf c).dropLast :=
      List.map_dropLast Entry.key c.list
    refine ⟨?_, ?_, ?_⟩
    · show (c.items.erase (c.list.getLast hnil).key).Nodup
      exact h1.erase _
    · show ((c.list.dropLast).map Entry.key).Nodup
      rw [hdl]
      exact ((keysOf c).dropLast_sublist).nodup h2
    · intro x
      show x ∈ c.items.erase (c.list.getLast hnil).key ↔
        x ∈ (c.list.dropLast).map Entry.key
      rw [List.Nodup.mem_erase_iff h1, hdl,
        mem_dropLast_iff h2 hkne x, keysOf_getLast hnil hkne, h3 x]

theorem removeOldest_length {c : Cache K V} (hne : c.list ≠ []) :
    (removeOldest c).list.length = c.list.length - 1 := by
  rw [removeOldest_shape hne]
  exact List.length_dropLast c.list

theorem sync_moveToFront {c : Cache K V} (h : Sync c) (k : K) :
    Sync { c with list := moveToFront c.list k } := by
  obtain ⟨h1, h2, h3⟩ := h
  have hp : (moveToFront c.list k).Perm c.list := moveToFront_perm c.list k
  have hk : ((moveToFront c.list k).map Entry.key).Perm (keysOf c) := hp.map _
  exact ⟨h1, hk.nodup_iff.mpr h2, fun x => (h3 x).trans (hk.mem_iff).symm⟩

theorem inv_removeElement {c : Cache K V} (h : Inv c) (k : K) :
    Inv (removeElement c k) := by
  obtain ⟨hs, hlen, hpos⟩ := h
  refine ⟨sync_removeElement hs k, ?_, hpos⟩
  calc (c.list.eraseP (keyMatch k)).length ≤ c.list.length := List.length_eraseP_le _
    _ ≤ c.size := hlen

theorem removeOldest_size (c : Cache K V) : (removeOldest c).size = c.size := by
  unfold removeOldest
  cases c.list.getLast? <;> rfl

theorem normCap_pos (n : Int) : 0 < normCap n := by
  unfold normCap DefaultCacheSize
  split <;> omega

theorem inv_Set {c : Cache K V} (h : Inv c) (now : Nat) (k : K) (v : V) :
    Inv (Set c now k v) := by
  obtain ⟨⟨h1, h2, h3⟩, hlen, hpos⟩ := h
  cases hf : c.list.find? (keyMatch k) with
  | some item =>
    obtain ⟨x, hxk, -, -, hset⟩ := Set_found_shape c now k v hf
    rw [hset]
    have hk : k ∈ keysOf c := mem_map_key_of_find? hf
    have hperm : ((x :: c.list.eraseP (keyMatch k)).map Entry.key).Perm (keysOf c) := by
      rw [List.map_cons, map_key_eraseP, hxk]
      exact (List.perm_cons_erase hk).symm
    have hlen2 : (x :: c.list.eraseP (keyMatch k)).length = c.list.length := by
      have := hperm.length_eq
      simpa [keysOf] using this
    refine ⟨⟨h1, hperm.nodup_iff.mpr h2, fun y => (h3 y).trans hperm.mem_iff.symm⟩, ?_, hpos⟩
    show (x :: c.list.eraseP (keyMatch k)).length ≤ c.size
    rw [hlen2]
    exact hlen
  | none =>
    have hkk : k ∉ keysOf c := find?_keyMatch_eq_none.mp hf
    have hki : k ∉ c.items := fun hx => hkk ((h3 k).mp hx)
    rw [Set_not_found_shape c now k v hf]
    have hs1 : Sync ({ c with
        list := { key := k, value := v, expireAt := mkExpire c.ttl now } :: c.list,
        items := k :: c.items } : Cache K V) := by
      refine ⟨List.nodup_cons.mpr ⟨hki, h1⟩, ?_, ?_⟩
      · show (k :: keysOf c).Nodup
        exact List.nodup_cons.mpr ⟨hkk, h2⟩
      · intro y
        show y ∈ k :: c.items ↔ y ∈ k :: keysOf c
        simp [h3 y]
    by_cases hov : c.list.length + 1 > c.size
    · rw [if_pos hov]
      refine ⟨sync_removeOldest hs1, ?_, ?_⟩
      · rw [removeOldest_length (by simp), removeOldest_size]
        show c.list.length + 1 - 1 ≤ c.size
        omega
      · rw [removeOldest_size]
        exact hpos
    · rw [if_neg hov]
      refine ⟨hs1, ?_, hpos⟩
      show c.list.length + 1 ≤ c.size
      omega

theorem inv_getAux {c : Cache K V} (h : Inv c) (now : Nat) (k : K) (u : Bool) :
    Inv (getAux c now k u).2.2 := by
  have hre : Inv (removeElement c k) := inv_removeElement h k
  obtain ⟨hs, hlen, hpos⟩ := h
  have hmv : Inv ({ c with list := moveToFront c.list k } : Cache K V) := by
    refine ⟨sync_moveToFront hs k, ?_, hpos⟩
    show (moveToFront c.list k).length ≤ c.size
    rw [(moveToFront_perm c.list k).length_eq]
    exact hlen
  unfold getAux
  cases hf : c.list.find? (keyMatch k) with
  | none => exact ⟨hs, hlen, hpos⟩
  | some item =>
    by_cases hl : isLive now item
    · cases u with
      | true => simpa [hl] using hmv
      | false => simpa [hl] using (⟨hs, hlen, hpos⟩ : Inv c)
    · simpa [hl] using hre

theorem shrink_props : ∀ (m : Nat) (c : Cache K V), c.list.length ≤ m →
    (shrink c).size = c.size ∧ (shrink c).list = c.list.take c.size ∧
    (Sync c → Sync (shrink c)) := by
  intro m
  induction m with
  | zero =>
    intro c hc
    rw [shrink, dif_neg (by omega)]
    exact ⟨rfl, (List.take_of_length_le (by omega)).symm, fun hs => hs⟩
  | succ m ih =>
    intro c hc
    rw [shrink]
    by_cases hgt : c.list.length > c.size
    · rw [dif_pos hgt]
      have hne : c.list ≠ [] := by
        intro hnil
        rw [hnil] at hgt
        simp at hgt
      have hlen1 : (removeOldest c).list.length = c.list.length - 1 :=
        removeOldest_length hne
      obtain ⟨ihs, ihl, ihsync⟩ := ih (removeOldest c) (by omega)
      refine ⟨by rw [ihs, removeOldest_size], ?_, fun hs => ihsync (sync_removeOldest hs)⟩
      rw [ihl, removeOldest_size]
      have hro : (removeOldest c).list = c.list.dropLast := by
        rw [removeOldest_shape hne]
      rw [hro, List.dropLast_eq_take, List.take_take]
      congr 1
      omega
    · rw [dif_neg hgt]
      exact ⟨rfl, (List.take_of_length_le (by omega)).symm, fun hs => hs⟩

theorem shrink_size (c : Cache K V) : (shrink c).size = c.size :=
  (shrink_props c.list.length c le_rfl).1

theorem shrink_list (c : Cache K V) : (shrink c).list = c.list.take c.size :=
  (shrink_props c.list.length c le_rfl).2.1

theorem sync_shrink {c : Cache K V} (hs : Sync c) : Sync (shrink c) :=
  (shrink_props c.list.length c le_rfl).2.2 hs

theorem inv_SetCapacity {c : Cache K V} (h : Inv c) (n : Int) :
    Inv (SetCapacity c n) := by
  obtain ⟨⟨h1, h2, h3⟩, hlen, hpos⟩ := h
  unfold SetCapacity
  refine ⟨sync_shrink ⟨h1, h2, h3⟩, ?_, ?_⟩
  · rw [shrink_size, shrink_list]
    show (c.list.take (normCap n)).length ≤ normCap n
    rw [List.length_take]
    omega
  · rw [shrink_size]
    exact normCap_pos n

theorem purgeGo_eq (now : Nat) : ∀ (l : List (Entry K V)) (its : List K),
    purgeGo now l its =
      (l.filter (fun e => !isExpired now e),
       (l.filter (isExpired now)).foldl (fun acc e => acc.erase e.key) its,
       (l.filter (isExpired now)).length) := by
  intro l
  induction l with
  | nil =>
    intro its
    rfl
  | cons e rest ih =>
    intro its
    by_cases he : isExpired now e
    · simp [purgeGo, he, ih, List.filter_cons]
    · simp [purgeGo, he, ih, List.filter_cons]

theorem nodup_foldl_erase : ∀ (es : List (Entry K V)) (its : List K), its.Nodup →
    (es.foldl (fun acc e => acc.erase e.key) its).Nodup := by
  intro es
  induction es with
  | nil =>
    intro its h
    exact h
  | cons e rest ih =>
    intro its h
    exact ih _ (h.erase _)

theorem mem_foldl_erase : ∀ (es : List (Entry K V)) (its : List K), its.Nodup → ∀ x,
    (x ∈ es.foldl (fun acc e => acc.erase e.key) its ↔
      x ∈ its ∧ ∀ e ∈ es, x ≠ e.key) := by
  intro es
  induction es with
  | nil =>
    intro its h x
    simp
  | cons e rest ih =>
    intro its h x
    rw [List.foldl_cons, ih _ (h.erase _) x, List.Nodup.mem_erase_iff h]
    constructor
    · rintro ⟨⟨hxe, hxi⟩, hall⟩
      refine ⟨hxi, fun e' he' => ?_⟩
      rcases List.mem_cons.mp he' with rfl | he'
      · exact hxe
      · exact hall e' he'
    · rintro ⟨hxi, hall⟩
      exact ⟨⟨hall e (List.mem_cons_self e rest), hxi⟩,
        fun e' he' => hall e' (List.mem_cons_of_mem e he')⟩

theorem eq_of_mem_of_nodup_keys : ∀ {l : List (Entry K V)}, (l.map Entry.key).Nodup →
    ∀ {e e' : Entry K V}, e ∈ l → e' ∈ l → e.key = e'.key → e = e' := by
  intro l
  induction l with
  | nil =>
    intro _ e e' he
    simp at he
  | cons a rest ih =>
    intro hn e e' he he' hk
    rw [List.map_cons, List.nodup_cons] at hn
    rcases List.mem_cons.mp he with he1 | he2
    · rcases List.mem_cons.mp he' with hf1 | hf2
      · rw [he1, hf1]
      · exfalso
        apply hn.1
        rw [← he1, hk]
        exact List.mem_map_of_mem _ hf2
    · rcases List.mem_cons.mp he' with hf1 | hf2
      · exfalso
        apply hn.1
        rw [← hf1, ← hk]
        exact List.mem_map_of_mem _ he2
      · exact ih hn.2 he2 hf2 hk

theorem mem_keys_filter_iff {l : List (Entry K V)} (hn : (l.map Entry.key).Nodup)
    (p : Entry K V → Bool) (x : K) :
    x ∈ (l.filter p).map Entry.key ↔
      x ∈ l.map Entry.key ∧ ∀ e ∈ l, e.key = x → p e = true := by
  constructor
  · intro hx
    obtain ⟨e, hef, hek⟩ := List.mem_map.mp hx
    obtain ⟨hel, hpe⟩ := List.mem_filter.mp hef
    refine ⟨by rw [← hek]; exact List.mem_map_of_mem _ hel, fun e' he' hk => ?_⟩
    have : e' = e := eq_of_mem_of_nodup_keys hn he' hel (by rw [hk, hek])
    rw [this]
    exact hpe
  · rintro ⟨hx, hall⟩
    obtain ⟨e, hel, hek⟩ := List.mem_map.mp hx
    have hpe : p e = true := hall e hel hek
    rw [← hek]
    exact List.mem_map_of_mem _ (List.mem_filter.mpr ⟨hel, hpe⟩)

theorem inv_Purge {c : Cache K V} (h : Inv c) (now : Nat) : Inv (Purge c now).2 := by
  obtain ⟨⟨h1, h2, h3⟩, hlen, hpos⟩ := h
  unfold Purge
  rw [purgeGo_eq]
  refine ⟨⟨nodup_foldl_erase _ _ h1, ?_, ?_⟩, ?_, hpos⟩
  · show ((c.list.filter (fun e => !isExpired now e)).map Entry.key).Nodup
    exact ((c.list.filter_sublist).map Entry.key).nodup h2
  · intro x
    show x ∈ (c.list.filter (isExpired now)).foldl (fun acc e => acc.erase e.key) c.items ↔
      x ∈ (c.list.filter (fun e => !isExpired now e)).map Entry.key
    rw [mem_foldl_erase _ _ h1 x, mem_keys_filter_iff h2, h3 x]
    constructor
    · rintro ⟨hx, hall⟩
      refine ⟨hx, fun e he hk => ?_⟩
      cases hie : isExpired now e with
      | false => simp
      | true => exact absurd hk.symm (hall e (List.mem_filter.mpr ⟨he, hie⟩))
    · rintro ⟨hx, hall⟩
      refine ⟨hx, fun e hef hxe => ?_⟩
      obtain ⟨hel, hexp⟩ := List.mem_filter.mp hef
      have := hall e hel hxe.symm
      rw [hexp] at this
      simp at this
  · show (c.list.filter (fun e => !isExpired now e)).length ≤ c.size
    calc (c.list.filter (fun e => !isExpired now e)).length ≤ c.list.length :=
        List.length_filter_le _ _
      _ ≤ c.size := hlen

theorem inv_Expire {c : Cache K V} (h : Inv c) (now : Nat) (k : K) (d : Int) :
    Inv (Expire c now k d) := by
  obtain ⟨⟨h1, h2, h3⟩, hlen, hpos⟩ := h
  unfold Expire
  cases hf : c.list.find? (keyMatch k) with
  | none => exact ⟨⟨h1, h2, h3⟩, hlen, hpos⟩
  | some item =>
    have hik : (⟨item.key, item.value,
        if 0 < d then some (now + d.toNat) else none⟩ : Entry K V).key = k := by
      show item.key = k
      exact key_of_find? hf
    have hkeys : (replaceFirst (keyMatch k)
        (⟨item.key, item.value,
          if 0 < d then some (now + d.toNat) else none⟩ : Entry K V) c.list).map Entry.key =
        c.list.map Entry.key :=
      map_key_replaceFirst hik c.list
    refine ⟨⟨h1, ?_, ?_⟩, ?_, hpos⟩
    · show ((replaceFirst (keyMatch k) _ c.list).map Entry.key).Nodup
      rw [hkeys]
      exact h2
    · intro y
      show y ∈ c.items ↔ y ∈ (replaceFirst (keyMatch k) _ c.list).map Entry.key
      rw [hkeys]
      exact h3 y
    · show (replaceFirst (keyMatch k) _ c.list).length ≤ c.size
      rw [length_replaceFirst]
      exact hlen

theorem inv_Delete {c : Cache K V} (h : Inv c) (k : K) : Inv (Delete c k).2 := by
  unfold Delete
  cases hf : c.list.find? (keyMatch k) with
  | none => exact h
  | some item => exact inv_removeElement h k

theorem inv_New (n : Int) : Inv (New K V n) :=
  ⟨⟨List.nodup_nil, List.nodup_nil, fun _ => Iff.rfl⟩, Nat.zero_le _, normCap_pos n⟩

theorem inv_of_reachable {c : Cache K V} (h : Reachable c) : Inv c := by
  induction h with
  | new n => exact inv_New n
  | ttl d _ ih => exact ih
  | set now k v _ ih => exact inv_Set ih now k v
  | expire now k d _ ih => exact inv_Expire ih now k d
  | get now k _ ih => exact inv_getAux ih now k true
  | peek now k _ ih => exact inv_getAux ih now k false
  | delete k _ ih => exact inv_Delete ih k
  | setCapacity n _ ih => exact inv_SetCapacity ih n
  | purge now _ ih => exact inv_Purge ih now
  | clear _ ih =>
    obtain ⟨-, -, hpos⟩ := ih
    exact ⟨⟨List.nodup_nil, List.nodup_nil, fun _ => Iff.rfl⟩, Nat.zero_le _, hpos⟩

theorem perm_items_keys {c : Cache K V} (h : Sync c) : c.items.Perm (keysOf c) := by
  obtain ⟨h1, h2, h3⟩ := h
  rw [List.perm_iff_count]
  intro a
  by_cases ha : a ∈ c.items
  · rw [List.count_eq_one_of_mem h1 ha, List.count_eq_one_of_mem h2 ((h3 a).mp ha)]
  · rw [List.count_eq_zero.mpr ha, Eq.comm, List.count_eq_zero]
    intro habs
    exact ha ((h3 a).mpr habs)

/-! The claims. -/

/-- C1: a `Set` of a key not in the cache whose insertion pushes the
element count past the capacity removes exactly one entry, namely the
one at the back of the recency order, synchronously within that `Set`
call: afterwards the list is the new entry followed by every old entry
except the back one, in order; the back entry's key leaves the map; and
the total count equals the count before the call. -/
theorem set_overflow_evicts_back (c : Cache K V) (now : Nat) (k : K) (v : V)
    (hk : c.list.find? (keyMatch k) = none)
    (hcap : c.size < c.list.length + 1) (hpos : 0 < c.size) :
    ∃ e : Entry K V, c.list.getLast? = some e ∧
      (Set c now k v).list =
        { key := k, value := v, expireAt := mkExpire c.ttl now } :: c.list.dropLast ∧
      (Set c now k v).items = (k :: c.items).erase e.key ∧
      Size (Set c now k v) = Size c := by
  obtain hnil | ⟨L, b, hLb⟩ := c.list.eq_nil_or_concat
  · rw [hnil] at hcap
    simp at hcap
    omega
  · rw [List.concat_eq_append] at hLb
    have hgl : c.list.getLast? = some b := by
      rw [hLb]
      exact List.getLast?_concat L
    have hset : Set c now k v =
        removeOldest { c with
          list := { key := k, value := v, expireAt := mkExpire c.ttl now } :: c.list,
          items := k :: c.items } := by
      rw [Set_not_found_shape c now k v hk, if_pos (by omega)]
    have hne1 : ({ c with
        list := { key := k, value := v, expireAt := mkExpire c.ttl now } :: c.list,
        items := k :: c.items } : Cache K V).list ≠ [] := by simp
    rw [hset, removeOldest_shape hne1]
    refine ⟨b, hgl, ?_, ?_, ?_⟩
    · show ({ key := k, value := v, expireAt := mkExpire c.ttl now } :: c.list).dropLast = _
      have hne : c.list ≠ [] := by
        rw [hLb]
        simp
      rw [List.dropLast_cons_of_ne_nil hne]
    · show (k :: c.items).erase
        (({ key := k, value := v, expireAt := mkExpire c.ttl now } :: c.list).getLast hne1).key
        = (k :: c.items).erase b.key
      have : ({ key := k, value := v, expireAt := mkExpire c.ttl now } :: c.list).getLast hne1
          = b := by
        rw [← Option.some.injEq, ← List.getLast?_eq_getLast _ hne1]
        rw [show ({ key := k, value := v, expireAt := mkExpire c.ttl now } :: c.list) =
          ({ key := k, value := v, expireAt := mkExpire c.ttl now } :: L) ++ [b] by
            rw [hLb]; rfl]
        exact List.getLast?_concat _
      rw [this]
    · show ({ key := k, value := v, expireAt := mkExpire c.ttl now } :: c.list).dropLast.length
        = Size c
      rw [List.length_dropLast, Size]
      simp only [List.length_cons]
      have : 0 < c.list.length := by
        rw [hLb]
        simp
      omega

/-- Witness for C1: capacity 2, keys 1 and 2 stored, inserting key 3
evicts exactly the back entry (key 1). -/
theorem set_overflow_evicts_back_witness :
    ∃ e : Entry Nat Nat,
      (Set (Set (New Nat Nat 2) 0 1 10) 1 2 20).list.getLast? = some e ∧
      (Set (Set (Set (New Nat Nat 2) 0 1 10) 1 2 20) 2 3 30).list =
        { key := 3, value := 30, expireAt :=
          mkExpire (Set (Set (New Nat Nat 2) 0 1 10) 1 2 20).ttl 2 } ::
          (Set (Set (New Nat Nat 2) 0 1 10) 1 2 20).list.dropLast ∧
      (Set (Set (Set (New Nat Nat 2) 0 1 10) 1 2 20) 2 3 30).items =
        (3 :: (Set (Set (New Nat Nat 2) 0 1 10) 1 2 20).items).erase e.key ∧
      Size (Set (Set (Set (New Nat Nat 2) 0 1 10) 1 2 20) 2 3 30) =
        Size (Set (Set (New Nat Nat 2) 0 1 10) 1 2 20) :=
  set_overflow_evicts_back (Set (Set (New Nat Nat 2) 0 1 10) 1 2 20) 2 3 30
    (by decide) (by decide) (by decide)

/-- C4: for an entry with a finite expiry instant, a read strictly
before that instant — promoting `Get` or non-promoting `Peek` — returns
the entry's value with found = true, and a read at or after it reports
found = false and removes the entry from both list and map as a side
effect of the read. -/
theorem read_ttl_expiry (c : Cache K V) (k : K) {e : Entry K V} (te now : Nat)
    (hf : c.list.find? (keyMatch k) = some e) (hexp : e.expireAt = some te) :
    (now < te →
      (Get c now k).1 = e.value ∧ (Get c now k).2.1 = true ∧
      Peek c now k = (e.value, true, c)) ∧
    (te ≤ now →
      Get c now k = (default, false, removeElement c k) ∧
      Peek c now k = (default, false, removeElement c k)) := by
  have hlive : isLive now e = decide (now < te) := by
    simp [isLive, hexp]
  constructor
  · intro hlt
    have hl : isLive now e = true := by
      rw [hlive]
      exact decide_eq_true hlt
    refine ⟨?_, ?_, ?_⟩ <;> simp [Get, Peek, getAux, hf, hl]
  · intro hge
    have hl : isLive now e = false := by
      rw [hlive]
      simp
      omega
    constructor <;> simp [Get, Peek, getAux, hf, hl]

/-- Witness for C4: default TTL 5, insert at time 10 (expiry 15); `Get`
at 14 returns the value, `Peek` at 15 misses and removes the entry. -/
theorem read_ttl_expiry_witness :
    (Get (Set (TTL (New Nat Nat 3) 5) 10 1 99) 14 1).1 = 99 ∧
    Peek (Set (TTL (New Nat Nat 3) 5) 10 1 99) 15 1 =
      (default, false, removeElement (Set (TTL (New Nat Nat 3) 5) 10 1 99) 1) :=
  ⟨((read_ttl_expiry (Set (TTL (New Nat Nat 3) 5) 10 1 99) 1
      (e := { key := 1, value := 99, expireAt := some 15 }) 15 14
      (by decide) (by decide)).1 (by decide)).1,
   ((read_ttl_expiry (Set (TTL (New Nat Nat 3) 5) 10 1 99) 1
      (e := { key := 1, value := 99, expireAt := some 15 }) 15 15
      (by decide) (by decide)).2 (by decide)).2⟩

/-- C10: whenever `Get` or `Peek` reports found = false — key absent, or
present but expired — the returned value is exactly the zero value of
the value type. -/
theorem miss_returns_zero_value (c : Cache K V) (now : Nat) (k : K) :
    ((Get c now k).2.1 = false → (Get c now k).1 = default) ∧
    ((Peek c now k).2.1 = false → (Peek c now k).1 = default) := by
  have hgen : ∀ u : Bool, (getAux c now k u).2.1 = false → (getAux c now k u).1 = default := by
    intro u
    unfold getAux
    cases hf : c.list.find? (keyMatch k) with
    | none => intro _; rfl
    | some item =>
      by_cases hl : isLive now item
      · cases u <;> simp [hl]
      · simp [hl]
  exact ⟨hgen true, hgen false⟩

/-- Witness for C10: a miss on an empty cache returns the zero value. -/
theorem miss_returns_zero_value_witness :
    (Get (New Nat Nat 3) 0 7).1 = default :=
  (miss_returns_zero_value (New Nat Nat 3) 0 7).1 (by decide)

/-- C3: promoting operations move the touched key to the front of the
recency order — a `Get` that finds a live entry reorders the list to
that entry followed by the rest, and a `Set` always leaves the written
key at the front when the capacity is positive — while a `Peek` that
finds a live entry returns the cache completely unchanged; concretely,
with capacity at least 3 and distinct keys, after inserting a, b, z the
key order is [z, b, a], and after `Get a` it is [a, z, b]. -/
theorem promotion_semantics (n : Int) (hn : 3 ≤ n) (a b z : K) (v1 v2 v3 : V)
    (t1 t2 t3 tg s1 s2 : Nat) (hab : a ≠ b) (haz : a ≠ z) (hbz : b ≠ z) :
    (∀ (d : Cache K V) (t : Nat) (k : K) (e : Entry K V),
      d.list.find? (keyMatch k) = some e → isLive t e = true →
        (Get d t k).2.2.list = e :: d.list.eraseP (keyMatch k) ∧
        (Peek d t k).2.2 = d) ∧
    (∀ (d : Cache K V) (t : Nat) (k : K) (v : V), 0 < d.size →
      ((Set d t k v).list.head?).map Entry.key = some k) ∧
    Keys (Set (Set (Set (New K V n) t1 a v1) t2 b v2) t3 z v3) s1 = [z, b, a] ∧
    Keys (Get (Set (Set (Set (New K V n) t1 a v1) t2 b v2) t3 z v3) tg a).2.2 s2 =
      [a, z, b] ∧
    (Peek (Set (Set (Set (New K V n) t1 a v1) t2 b v2) t3 z v3) tg a).2.2 =
      Set (Set (Set (New K V n) t1 a v1) t2 b v2) t3 z v3 := by
  have hm : 3 ≤ normCap n := by
    unfold normCap
    rw [if_neg (by omega)]
    omega
  have h1 : ¬(0 + 1 > normCap n) := by omega
  have h2 : ¬(1 + 1 > normCap n) := by omega
  have h3 : ¬(2 + 1 > normCap n) := by omega
  refine ⟨?_, ?_, ?_, ?_, ?_⟩
  · intro d t k e hf hl
    constructor
    · simp [Get, getAux, hf, hl, moveToFront]
    · simp [Peek, getAux, hf, hl]
  · intro d t k v hpos
    cases hf : d.list.find? (keyMatch k) with
    | some item =>
      obtain ⟨x, hxk, -, -, hset⟩ := Set_found_shape d t k v hf
      rw [hset]
      simp [hxk]
    | none =>
      rw [Set_not_found_shape d t k v hf]
      by_cases hov : d.list.length + 1 > d.size
      · rw [if_pos hov]
        have hne : d.list ≠ [] := by
          intro hnil
          rw [hnil] at hov
          simp at hov
          omega
        rw [removeOldest_shape (by simp)]
        show (({ key := k, value := v, expireAt := mkExpire d.ttl t } ::
          d.list).dropLast.head?).map Entry.key = some k
        rw [List.dropLast_cons_of_ne_nil hne]
        rfl
      · rw [if_neg hov]
        rfl
  · simp [Set, New, mkExpire, keyMatch, Keys, isLive, hab, haz, hbz, h1, h2, h3,
      hab.symm, haz.symm, hbz.symm, moveToFront]
  · simp [Set, New, mkExpire, keyMatch, Keys, isLive, hab, haz, hbz, h1, h2, h3,
      hab.symm, haz.symm, hbz.symm, moveToFront, Get, Peek, getAux, List.eraseP_cons]
  · simp [Set, New, mkExpire, keyMatch, Keys, isLive, hab, haz, hbz, h1, h2, h3,
      hab.symm, haz.symm, hbz.symm, moveToFront, Get, Peek, getAux, List.eraseP_cons]

/-- Witness for C3: capacity 3 with keys 1, 2, 3: the key order is
[3, 2, 1] after the inserts and [1, 3, 2] after `Get 1`. -/
theorem promotion_semantics_witness :
    Keys (Set (Set (Set (New Nat Nat 3) 0 1 10) 1 2 20) 2 3 30) 5 = [3, 2, 1] ∧
    Keys (Get (Set (Set (Set (New Nat Nat 3) 0 1 10) 1 2 20) 2 3 30) 6 1).2.2 7 =
      [1, 3, 2] :=
  ⟨(promotion_semantics 3 (by decide) 1 2 3 10 20 30 0 1 2 6 5 7
      (by decide) (by decide) (by decide)).2.2.1,
   (promotion_semantics 3 (by decide) 1 2 3 10 20 30 0 1 2 6 5 7
      (by decide) (by decide) (by decide)).2.2.2.1⟩

/-- C5: a `Set` on a key already present recomputes the entry's expiry
from the current default TTL when the old entry had a finite expiry, and
keeps the entry expiry-free when the old entry had none, whatever the
current default TTL; in both cases the updated entry moves to the front
and the map domain is unchanged. -/
theorem set_renew_on_touch (c : Cache K V) (now : Nat) (k : K) (v : V) {e : Entry K V}
    (hf : c.list.find? (keyMatch k) = some e) :
    (∀ t0, e.expireAt = some t0 →
      (Set c now k v).list =
        { key := k, value := v, expireAt := mkExpire c.ttl now } ::
          c.list.eraseP (keyMatch k)) ∧
    (e.expireAt = none →
      (Set c now k v).list =
        { key := k, value := v, expireAt := none } :: c.list.eraseP (keyMatch k)) ∧
    (Set c now k v).items = c.items := by
  obtain ⟨x, hxk, hxv, hxe, hset⟩ := Set_found_shape c now k v hf
  refine ⟨?_, ?_, by rw [hset]⟩
  · intro t0 ht
    rw [hset]
    rw [ht] at hxe
    have hx2 : x = { key := k, value := v, expireAt := mkExpire c.ttl now } := by
      cases x
      simp only [Entry.mk.injEq]
      exact ⟨hxk, hxv, hxe⟩
    rw [hx2]
  · intro ht
    rw [hset]
    rw [ht] at hxe
    have hx2 : x = { key := k, value := v, expireAt := none } := by
      cases x
      simp only [Entry.mk.injEq]
      exact ⟨hxk, hxv, hxe⟩
    rw [hx2]

/-- Witness for C5: with default TTL 5, re-inserting key 1 at time 20
renews its finite expiry to 25; an expiry-free entry stays expiry-free
on re-insert even with the default TTL set. -/
theorem set_renew_on_touch_witness :
    (Set (Set (TTL (New Nat Nat 3) 5) 10 1 99) 20 1 100).list =
      [{ key := 1, value := 100, expireAt := some 25 }] ∧
    (Set (TTL (Set (New Nat Nat 3) 0 1 1) 5) 20 1 2).list =
      [{ key := 1, value := 2, expireAt := none }] :=
  ⟨((set_renew_on_touch (Set (TTL (New Nat Nat 3) 5) 10 1 99) 20 1 100
      (e := { key := 1, value := 99, expireAt := some 15 })
      (by decide)).1 15 (by decide)).trans (by decide),
   ((set_renew_on_touch (TTL (Set (New Nat Nat 3) 0 1 1) 5) 20 1 2
      (e := { key := 1, value := 1, expireAt := none })
      (by decide)).2.1 (by decide)).trans (by decide)⟩

theorem length_filter_partition (p : Entry K V → Bool) (l : List (Entry K V)) :
    (l.filter (fun e => !p e)).length + (l.filter p).length = l.length := by
  induction l with
  | nil => rfl
  | cons e rest ih =>
    by_cases h : p e <;> simp [List.filter_cons, h] <;> omega

/-- C6: one `Purge` call walks the recency order once and removes
exactly the entries whose expiry is finite and in the past at the
captured time: the returned count is the number of such entries, the
surviving list is the in-order remainder (entries with no expiry or a
future or present expiry are untouched), the size drops by exactly the
count, the capacity is untouched, and on an empty cache the count is
zero. -/
theorem purge_removes_expired (c : Cache K V) (now : Nat) :
    (Purge c now).1 = (c.list.filter (isExpired now)).length ∧
    (Purge c now).2.list = c.list.filter (fun e => !isExpired now e) ∧
    Size (Purge c now).2 + (Purge c now).1 = Size c ∧
    (Purge c now).2.size = c.size ∧
    (c.list = [] → (Purge c now).1 = 0) := by
  unfold Purge
  rw [purgeGo_eq]
  refine ⟨rfl, rfl, ?_, rfl, ?_⟩
  · show (c.list.filter (fun e => !isExpired now e)).length +
      (c.list.filter (isExpired now)).length = c.list.length
    exact length_filter_partition (isExpired now) c.list
  · intro h
    rw [h]
    rfl

/-- Witness for C6: purging the empty cache returns zero. -/
theorem purge_removes_expired_witness :
    (Purge (New Nat Nat 3) 5).1 = 0 :=
  (purge_removes_expired (New Nat Nat 3) 5).2.2.2.2 (by decide)

/-- C7: constructing with a non-positive capacity and resizing to a
non-positive capacity both silently substitute the fixed default 10;
`SetCapacity` installs the normalised capacity and then evicts from the
back exactly until the count fits — the surviving list is the front
prefix of the old order with the new capacity's length — and evicts
nothing when the count already fits. -/
theorem capacity_normalisation (c : Cache K V) (n : Int) :
    (n ≤ 0 → Capacity (New K V n) = 10 ∧ Capacity (SetCapacity c n) = 10) ∧
    Capacity (SetCapacity c n) = normCap n ∧
    (SetCapacity c n).list = c.list.take (normCap n) ∧
    (c.list.length ≤ normCap n →
      SetCapacity c n = { c with size := normCap n }) := by
  have hsz : Capacity (SetCapacity c n) = normCap n := by
    unfold SetCapacity Capacity
    rw [shrink_size]
  have hls : (SetCapacity c n).list = c.list.take (normCap n) := by
    unfold SetCapacity
    rw [shrink_list]
  refine ⟨?_, hsz, hls, ?_⟩
  · intro hn
    constructor
    · show normCap n = 10
      unfold normCap DefaultCacheSize
      rw [if_pos hn]
    · rw [hsz]
      unfold normCap DefaultCacheSize
      rw [if_pos hn]
  · intro hfit
    unfold SetCapacity
    rw [shrink, dif_neg (show ¬(c.list.length > normCap n) by omega)]

/-- Witness for C7: resizing a one-entry cache to capacity -5 installs
the default capacity 10 and evicts nothing. -/
theorem capacity_normalisation_witness :
    Capacity (New Nat Nat (-5)) = 10 ∧
    SetCapacity (Set (New Nat Nat 5) 0 1 1) (-5) =
      { (Set (New Nat Nat 5) 0 1 1) with size := 10 } :=
  ⟨((capacity_normalisation (Set (New Nat Nat 5) 0 1 1) (-5)).1 (by decide)).1,
   ((capacity_normalisation (Set (New Nat Nat 5) 0 1 1) (-5)).2.2.2
      (by decide)).trans (by decide)⟩

/-- C9: `Expire` on the handle of a key still present overwrites only
that entry's expiry — `none` (never expires) for a non-positive
duration, `now + d` for a positive one — overriding whatever the insert
computed, while preserving the map, the key order, and the entry's key
and value; when the key has been evicted the handle's call is a no-op
that leaves the cache exactly unchanged. -/
theorem expire_handle (c : Cache K V) (now : Nat) (k : K) (d : Int) :
    (c.list.find? (keyMatch k) = none → Expire c now k d = c) ∧
    (∀ item, c.list.find? (keyMatch k) = some item →
      (Expire c now k d).items = c.items ∧
      (Expire c now k d).list.map Entry.key = c.list.map Entry.key ∧
      (Expire c now k d).list.find? (keyMatch k) =
        some { key := item.key, value := item.value,
               expireAt := if 0 < d then some (now + d.toNat) else none }) := by
  constructor
  · intro hf
    unfold Expire
    rw [hf]
  · intro item hf
    have hik : ((⟨item.key, item.value,
        if 0 < d then some (now + d.toNat) else none⟩ : Entry K V)).key = k := by
      show item.key = k
      exact key_of_find? hf
    refine ⟨?_, ?_, ?_⟩
    · unfold Expire
      rw [hf]
    · show (Expire c now k d).list.map Entry.key = _
      unfold Expire
      rw [hf]
      exact map_key_replaceFirst hik c.list
    · unfold Expire
      rw [hf]
      exact find?_replaceFirst (keyMatch_iff.mpr hik) hf

/-- Witness for C9: expiring an absent key is a no-op; `Expire 0` on a
present entry that had a finite expiry makes it never expire. -/
theorem expire_handle_witness :
    Expire (New Nat Nat 3) 0 7 5 = New Nat Nat 3 ∧
    (Expire (Set (TTL (New Nat Nat 3) 5) 10 1 99) 11 1 0).list.find? (keyMatch 1) =
      some { key := 1, value := 99, expireAt := none } :=
  ⟨(expire_handle (New Nat Nat 3) 0 7 5).1 (by decide),
   (((expire_handle (Set (TTL (New Nat Nat 3) 5) 10 1 99) 11 1 0).2
      { key := 1, value := 99, expireAt := some 15 } (by decide)).2.2).trans (by decide)⟩

/-- C2: every state reachable from a freshly constructed cache by the
public operations satisfies the structural invariant after the
operation completes: a key is in the key-to-element map exactly when an
entry with that key is in the recency list, the map and the list have
equal length, and that length is at most the capacity — in particular
`Size` never exceeds `Capacity`. -/
theorem reachable_invariant {c : Cache K V} (h : Reachable c) :
    (∀ k, k ∈ c.items ↔ k ∈ c.list.map Entry.key) ∧
    c.items.length = c.list.length ∧
    c.list.length ≤ c.size ∧ Size c ≤ Capacity c := by
  obtain ⟨hs, hlen, hpos⟩ := inv_of_reachable h
  have hperm := perm_items_keys hs
  refine ⟨fun k => hs.2.2 k, ?_, hlen, hlen⟩
  have := hperm.length_eq
  simpa [keysOf] using this

/-- Witness for C2: the invariant holds on a concrete reachable state,
a capacity-2 cache after one insert. -/
theorem reachable_invariant_witness :
    (5 ∈ (Set (New Nat Nat 2) 0 5 7).items ↔
      5 ∈ (Set (New Nat Nat 2) 0 5 7).list.map Entry.key) ∧
    (Set (New Nat Nat 2) 0 5 7).items.length = (Set (New Nat Nat 2) 0 5 7).list.length ∧
    Size (Set (New Nat Nat 2) 0 5 7) ≤ Capacity (Set (New Nat Nat 2) 0 5 7) :=
  ⟨(reachable_invariant (Reachable.set 0 5 7 (Reachable.new 2))).1 5,
   (reachable_invariant (Reachable.set 0 5 7 (Reachable.new 2))).2.1,
   (reachable_invariant (Reachable.set 0 5 7 (Reachable.new 2))).2.2.2⟩

/-- Counterexample to C8 as stated: with default TTL 5, key 1 inserted
at time 10 carries expiry instant 15; at time 20 the entry is expired
but not yet swept, so `Size` reports 1 while `Keys` enumerates nothing —
`Size` is not the count of unexpired entries that `Keys` enumerates. -/
theorem size_counts_expired_counterexample :
    Size (Set (TTL (New Nat Nat 3) 5) 10 1 1) = 1 ∧
    Keys (Set (TTL (New Nat Nat 3) 5) 10 1 1) 20 = [] ∧
    Size (Set (TTL (New Nat Nat 3) 5) 10 1 1) ≠
      (Keys (Set (TTL (New Nat Nat 3) 5) 10 1 1) 20).length := by
  decide

/-- C8 amended: `Size` returns the number of entries currently stored in
the recency list — counting expired entries that have not yet been
removed — and has no side effects on the cache; whenever every stored
entry is unexpired at the reading instant, this equals the number of
keys that `Keys` enumerates. -/
theorem size_is_stored_count (c : Cache K V) (now : Nat) :
    Size c = c.list.length ∧
    ((∀ e ∈ c.list, isLive now e = true) → Size c = (Keys c now).length) := by
  refine ⟨rfl, fun h => ?_⟩
  unfold Size Keys
  rw [List.length_map, List.filter_eq_self.mpr h]

/-- Witness for C8 amended: on a cache whose sole entry never expires,
`Size` equals the number of keys `Keys` returns. -/
theorem size_is_stored_count_witness :
    Size (Set (New Nat Nat 3) 0 1 7) = (Keys (Set (New Nat Nat 3) 0 1 7) 5).length :=
  (size_is_stored_count (Set (New Nat Nat 3) 0 1 7) 5).2 (by decide)

end LruGo
